import Mathlib

/-!
Shallow embedding of the reconciliation core of `tracker_backend.py`
(the Terraform feature-lag tracker) together with proofs about it.

Modelling conventions:
* Python strings are `List Char` (ASCII inputs; `str.lower` is `Char.toLower`
  mapped over the characters, Python's substring test `a in b` is
  `List.IsInfix`).
* `datetime` instants are integers (seconds since the epoch); Python's
  `timedelta.days` is floor division of the difference by 86400.
* Python's float score `hits / len(tokens)` and the literal thresholds
  `0.20 / 0.25 / 0.30` are modelled over `ℚ`; the executable acceptance
  test compares integers (cross-multiplied), and a lemma proves it equal
  to the rational `score >= threshold` test of the source.
* Python's stable `list.sort` is modelled by the (stable) insertion sort
  `List.insertionSort`.
-/

namespace Tracker

/-- Python strings, modelled as lists of characters. -/
abbrev Str := List Char

/-- Python `s.lower()`, character-wise (ASCII). -/
def lowerStr (s : Str) : Str := s.map Char.toLower

/-- A character matched by the regex class `\w`: alphanumeric or underscore. -/
def isWordChar (c : Char) : Bool := c.isAlphanum || c == '_'

/-- Helper for `wordsOf`: scans the input, `acc` holds the current run of
word characters in reverse. -/
def wordsAux : Str → Str → List Str
  | [], acc => if acc = [] then [] else [acc.reverse]
  | c :: cs, acc =>
    if isWordChar c then wordsAux cs (c :: acc)
    else if acc = [] then wordsAux cs [] else acc.reverse :: wordsAux cs []

/-- Python `re.findall(r'\w+', s)`: the maximal runs of word characters. -/
def wordsOf (s : Str) : List Str := wordsAux s []

/-- Python `t.endswith('s')`. -/
def endsWithS (t : Str) : Bool := t.getLast? == some 's'

/-- The token-set construction of `process_features` (lines 177-182): for
each word of the lowercased title that is not a stop word, add it, and if it
ends in `'s'` also add it with the final character dropped (`t[:-1]`). -/
def tokensOf (stop : List Str) (title : Str) : Finset Str :=
  (wordsOf (lowerStr title)).foldl
    (fun s t =>
      if t ∈ stop then s
      else if endsWithS t then insert t.dropLast (insert t s) else insert t s)
    ∅

/-- The global `SYNONYMS` dictionary of the source. -/
def SYNONYMS : List (Str × Str) :=
  [("elastic kubernetes service".toList, "eks".toList),
   ("kubernetes".toList, "eks".toList),
   ("elastic compute cloud".toList, "ec2".toList),
   ("ec2".toList, "ec2".toList),
   ("simple storage service".toList, "s3".toList),
   ("relational database service".toList, "rds".toList),
   ("lambda".toList, "lambda".toList),
   ("dynamodb".toList, "dynamodb".toList),
   ("cloudwatch".toList, "cloudwatch".toList),
   ("identity and access management".toList, "iam".toList),
   ("bedrock".toList, "bedrock".toList),
   ("sagemaker".toList, "sagemaker".toList),
   ("vpc".toList, "vpc".toList),
   ("compute engine".toList, "compute".toList),
   ("kubernetes engine".toList, "container".toList),
   ("cloud storage".toList, "storage".toList),
   ("cloud sql".toList, "sql".toList),
   ("cloud run".toList, "cloudrun".toList),
   ("bigquery".toList, "bigquery".toList),
   ("security command center".toList, "scc".toList),
   ("vpc service controls".toList, "vpcsc".toList),
   ("cloud functions".toList, "cloudfunctions".toList),
   ("artifact registry".toList, "artifactregistry".toList),
   ("kubernetes service".toList, "kubernetes".toList),
   ("aks".toList, "kubernetes".toList),
   ("cosmos db".toList, "cosmosdb".toList),
   ("blob storage".toList, "storage".toList),
   ("virtual machines".toList, "virtual_machine".toList),
   ("virtual network".toList, "virtual_network".toList)]

/-- Python `SYNONYMS.get(service_raw, service_raw)`. -/
def synonymLookup (s : Str) : Str :=
  match SYNONYMS.lookup s with
  | some v => v
  | none => s

/-- The per-cloud settings of `CLOUD_CONFIG` that the reconciler reads
(the feed urls and repository name are fetch plumbing and not modelled). -/
structure CloudConfig where
  stop_words : List Str
  resource_prefix : Str

/-- The `aws` entry of `CLOUD_CONFIG`. -/
def awsConfig : CloudConfig where
  stop_words :=
    ["amazon".toList, "aws".toList, "now".toList, "supports".toList,
     "available".toList, "introducing".toList, "general".toList,
     "availability".toList, "for".toList, "with".toList, "announcing".toList,
     "new".toList, "capabilities".toList, "feature".toList, "region".toList,
     "launch".toList]
  resource_prefix := "aws_".toList

/-- The `azure` entry of `CLOUD_CONFIG`. -/
def azureConfig : CloudConfig where
  stop_words :=
    ["azure".toList, "microsoft".toList, "public".toList, "preview".toList,
     "general".toList, "availability".toList, "now".toList, "available".toList,
     "support".toList, "in".toList, "generally".toList, "updates".toList,
     "update".toList, "new".toList, "announcing".toList]
  resource_prefix := "azurerm_".toList

/-- The `gcp` entry of `CLOUD_CONFIG`. -/
def gcpConfig : CloudConfig where
  stop_words :=
    ["google".toList, "cloud".toList, "platform".toList, "gcp".toList,
     "beta".toList, "ga".toList, "release".toList, "notes".toList,
     "available".toList, "support".toList, "feature".toList, "launch".toList,
     "new".toList, "announcing".toList]
  resource_prefix := "google_".toList

/-- A Python `datetime`: either offset-naive (its payload is the instant
obtained by reading the clock fields as UTC) or timezone-aware (its payload
is the absolute instant). -/
inductive PyDateTime where
  | naive (t : Int)
  | aware (t : Int)
deriving DecidableEq

/-- Whether `dt.tzinfo` is set. -/
def PyDateTime.isAware : PyDateTime → Bool
  | .naive _ => false
  | .aware _ => true

/-- The absolute instant of a datetime (for a naive one, the instant its
clock fields denote when read as UTC, which is how the program interprets
it once `make_aware` has run). -/
def PyDateTime.instant : PyDateTime → Int
  | .naive t => t
  | .aware t => t

/-- The `make_aware` function (lines 56-59): `None` becomes the current
UTC instant, an offset-naive datetime gets `tzinfo=timezone.utc` attached
to its unchanged clock fields, an aware datetime passes through. -/
def make_aware (now : Int) (dt : Option PyDateTime) : PyDateTime :=
  match dt with
  | none => .aware now
  | some (.naive t) => .aware t
  | some (.aware t) => .aware t

/-- The mutable `FeatureRecord` object: the announcement together with its
three outcome fields. -/
structure FeatureRecordPy where
  cloud : Str
  service : Str
  feature : Str
  ga_date : PyDateTime
  link : Str
  tf_status : Str
  tf_version : Str
  lag_days : Int
deriving DecidableEq

/-- The `FeatureRecord.__init__` constructor (lines 62-70): `ga_date` is
the `make_aware` of the supplied date and the outcome fields start as
`Not Supported` / `"--"` / `0`. -/
def FeatureRecordPy.init (now : Int) (cloud service feature : Str)
    (date : Option PyDateTime) (link : Str) : FeatureRecordPy where
  cloud := cloud
  service := service
  feature := feature
  ga_date := make_aware now date
  link := link
  tf_status := "Not Supported".toList
  tf_version := "--".toList
  lag_days := 0

/-- One Terraform release as built by `fetch_tf_releases`: a version label,
a publish instant, and a lowercased body. -/
structure Release where
  version : Str
  date : Int
  body : Str
deriving DecidableEq

/-- The token score of line 192-193: the fraction of announcement tokens
found as substrings of the body, `0` when the token set is empty. -/
def tokenScoreQ (tokens : Finset Str) (body : Str) : ℚ :=
  let hits := (tokens.filter (fun t => t <:+: body)).card
  if tokens = ∅ then 0 else (hits : ℚ) / (tokens.card : ℚ)

/-- The acceptance threshold of line 194: `0.20` on a resource match, else
`0.25` on a service match, else `0.30`. -/
def thresholdQ (resource_match service_match : Bool) : ℚ :=
  if resource_match then 1/5 else if service_match then 1/4 else 3/10

/-- The acceptance test of lines 189-195 for one release: compute the
resource / service substring signals and the token hit count and test
`score >= threshold`. The comparison is written over integers
(cross-multiplied) so that it is kernel-computable;
`acceptsRelease_eq_scoreQ` proves it equal to the rational
`thresholdQ <= tokenScoreQ` test of the source. -/
def acceptsRelease (tokens : Finset Str) (service_token resource_guess : Str)
    (r : Release) : Bool :=
  let body := r.body
  let resource_match := decide (resource_guess <:+: body)
  let service_match := decide (service_token <:+: body)
  let hits := (tokens.filter (fun t => t <:+: body)).card
  let n := tokens.card
  if n = 0 then false
  else if resource_match then decide (n ≤ 5 * hits)
  else if service_match then decide (n ≤ 4 * hits)
  else decide (3 * n ≤ 10 * hits)

/-- Python `releases.sort(key=lambda x: x['date'])`: a stable ascending
sort by publish instant, modelled by stable insertion sort. -/
def sortByDate (releases : List Release) : List Release :=
  releases.insertionSort (fun a b => a.date ≤ b.date)

/-- Line 176: the candidates whose publish instant is at least the
announcement's GA instant, in the order of the already-sorted list. -/
def eligibleReleases (f : FeatureRecordPy) (sorted : List Release) :
    List Release :=
  sorted.filter (fun r => decide (f.ga_date.instant ≤ r.date))

/-- Lines 177-182: the token set of the announcement under the cloud's
stop words. -/
def announceTokens (cfg : CloudConfig) (f : FeatureRecordPy) : Finset Str :=
  tokensOf cfg.stop_words f.feature

/-- Lines 183-184: `SYNONYMS.get(service_raw, service_raw)` on the
lowercased service name. -/
def serviceToken (f : FeatureRecordPy) : Str :=
  synonymLookup (lowerStr f.service)

/-- Line 185: the resource-name guess, the cloud's resource prefix glued
to the canonical service token. -/
def resourceGuess (cfg : CloudConfig) (f : FeatureRecordPy) : Str :=
  cfg.resource_prefix ++ serviceToken f

/-- The matching loop of lines 186-197: scan the eligible releases in
order and return the first accepted one (the loop's `best_match` at the
`break`), if any. -/
def matchedRelease (cfg : CloudConfig) (f : FeatureRecordPy)
    (sorted : List Release) : Option Release :=
  (eligibleReleases f sorted).find?
    (acceptsRelease (announceTokens cfg f) (serviceToken f) (resourceGuess cfg f))

/-- Python `timedelta.days`: floor division of the difference in seconds
by one day. -/
def tdDays (d : Int) : Int := d.fdiv 86400

/-- Lines 198-206, for one feature against the sorted release list: on a
match set status `Supported`, the matched version, and the clamped lag; on
no match set status `Not Supported` and the days elapsed since GA (the
version field is left untouched there, as in the source). -/
def reconcileOne (now : Int) (cfg : CloudConfig) (f : FeatureRecordPy)
    (sorted : List Release) : FeatureRecordPy :=
  match matchedRelease cfg f sorted with
  | some r =>
    let lag := tdDays (r.date - f.ga_date.instant)
    { f with
      tf_status := "Supported".toList
      tf_version := r.version
      lag_days := if 0 ≤ lag then lag else 0 }
  | none =>
    { f with
      tf_status := "Not Supported".toList
      lag_days := tdDays (now - f.ga_date.instant) }

/-- The `process_features` function (lines 171-208) at record granularity
(serialisation by `to_dict` is not modelled): with no releases at all the
records are returned untouched (line 172); otherwise the releases are
sorted by date once and every feature is reconciled against them. The
unused `cloud_name` parameter of the source is dropped. -/
def process_features (now : Int) (cfg : CloudConfig)
    (features : List FeatureRecordPy) (releases : List Release) :
    List FeatureRecordPy :=
  if releases = [] then features
  else
    let sorted := sortByDate releases
    features.map (fun f => reconcileOne now cfg f sorted)

/-- Declarative form of the token-set construction, used to state what
`tokensOf` computes: the words surviving the stop-word filter, together
with the trailing-`s`-stripped form of each surviving word that ends in
`'s'`. -/
def tokenSetSpec (stop : List Str) (title : Str) : Finset Str :=
  let base := ((wordsOf (lowerStr title)).filter (fun t => t ∉ stop)).toFinset
  base ∪ (base.filter (fun t => endsWithS t = true)).image List.dropLast

/-- Helper for `specWordsOf`: like `wordsAux` but for purely alphanumeric
runs. -/
def specWordsAux : Str → Str → List Str
  | [], acc => if acc = [] then [] else [acc.reverse]
  | c :: cs, acc =>
    if c.isAlphanum then specWordsAux cs (c :: acc)
    else if acc = [] then specWordsAux cs [] else acc.reverse :: specWordsAux cs []

/-- Modelled from the spec: splitting the title "on non-alphanumeric
boundaries", i.e. the maximal runs of alphanumeric characters (the source
instead keeps `\w+` runs, which also treat `'_'` as a word character). -/
def specWordsOf (s : Str) : List Str := specWordsAux s []

/-- Modelled from the spec: the token set built from the purely
alphanumeric words of the title, as the claim about tokenization words it;
to be compared with the source-derived `tokensOf`. -/
def specTokenSet (stop : List Str) (title : Str) : Finset Str :=
  let base := ((specWordsOf (lowerStr title)).filter (fun t => t ∉ stop)).toFinset
  base ∪ (base.filter (fun t => endsWithS t = true)).image List.dropLast

/-- One persisted record as serialised by `to_dict` and re-read by `main`;
the merge logic only inspects `cloud`, `feature` and `date` (the `date`
field holds the formatted `YYYY-MM-DD` string, compared lexicographically
by Python's sort), the remaining payload is carried along opaquely. -/
structure OutRecord where
  cloud : Str
  feature : Str
  date : Str
  status : Str
  version : Str
  lag : Int
deriving DecidableEq

/-- The dictionary key of line 243: `f"{item['cloud']}-{item['feature']}"`. -/
def recordKey (r : OutRecord) : Str := r.cloud ++ '-' :: r.feature

/-- One Python dict assignment `d[k] = v` on an insertion-ordered
association list: overwrite in place if the key is present, else append. -/
def upsert : List (Str × OutRecord) → Str × OutRecord → List (Str × OutRecord)
  | [], kv => [kv]
  | p :: rest, kv => if p.1 = kv.1 then kv :: rest else p :: upsert rest kv

/-- The dict comprehension of line 243: fold every record into an
insertion-ordered dictionary keyed by `recordKey`, later records
overwriting earlier ones. -/
def buildMap (l : List OutRecord) : List (Str × OutRecord) :=
  l.foldl (fun d r => upsert d (recordKey r, r)) []

/-- Dictionary lookup on the association list (keys are unique, so the
first hit is the entry). -/
def mapLookup : List (Str × OutRecord) → Str → Option OutRecord
  | [], _ => none
  | p :: rest, k => if p.1 = k then some p.2 else mapLookup rest k

/-- The last record of the list whose key is `k`, i.e. the value the dict
comprehension ends up storing under `k`. -/
def lastWith : List OutRecord → Str → Option OutRecord
  | [], _ => none
  | r :: rest, k =>
    match lastWith rest k with
    | some m => some m
    | none => if recordKey r = k then some r else none

/-- Python string comparison `a <= b`: lexicographic on code points. -/
def strLe : Str → Str → Bool
  | [], _ => true
  | _ :: _, [] => false
  | a :: as, b :: bs => if a < b then true else if b < a then false else strLe as bs

/-- Lines 243-245 of `main`: build the dict keyed by cloud and feature
text over `existing ++ new` (new records overwrite existing ones), take
its values, and stable-sort them by the `date` string descending
(`reverse=True`). -/
def mergeRecords (existing new : List OutRecord) : List OutRecord :=
  ((buildMap (existing ++ new)).map Prod.snd).insertionSort
    (fun a b => strLe b.date a.date = true)

/-- The date handling of the feed fetchers (lines 146-147): a successful
parse result is used as is, a missing or unparseable date (the `except`
arm) is replaced by the current UTC instant. -/
def parseEntryDate (now : Int) (parsed : Option PyDateTime) : PyDateTime :=
  match parsed with
  | some dt => dt
  | none => .aware now

/-- A concrete announcement used by several witnesses: tokens
`{widget, compression}` under the aws stop words. -/
def wFeature : FeatureRecordPy where
  cloud := "aws".toList
  service := "x".toList
  feature := "Widget Compression".toList
  ga_date := .aware 0
  link := []
  tf_status := "Not Supported".toList
  tf_version := "--".toList
  lag_days := 0

/-- A release published before `wFeature`'s GA instant whose body would
match perfectly: it must never be eligible. -/
def relEarly : Release where
  version := "v1.0".toList
  date := -86400
  body := "widget compression".toList

/-- An eligible release whose body matches nothing. -/
def relMiss : Release where
  version := "v1.2".toList
  date := 86400
  body := "nothing here".toList

/-- A later eligible release whose body contains every token. -/
def relHit : Release where
  version := "v1.3".toList
  date := 172800
  body := "widget compression support".toList

/-- An announcement whose GA instant (one day after the epoch) lies in
the future relative to the reconciliation instant `0`. -/
def futureFeature : FeatureRecordPy where
  cloud := "aws".toList
  service := "x".toList
  feature := "Widget".toList
  ga_date := .aware 86400
  link := []
  tf_status := "Not Supported".toList
  tf_version := "--".toList
  lag_days := 0

/-- An eligible release with an empty body, matching nothing. -/
def relBlank : Release where
  version := "v9".toList
  date := 100000
  body := []

/-- An announcement whose title consists only of aws stop words, so its
token set is empty. -/
def stopOnlyFeature : FeatureRecordPy where
  cloud := "aws".toList
  service := "x".toList
  feature := "Now Available for New Launch".toList
  ga_date := .aware 0
  link := []
  tf_status := "Not Supported".toList
  tf_version := "--".toList
  lag_days := 0

/-- A persisted record reconciled as unsupported, used by merge witnesses. -/
def oldRec : OutRecord where
  cloud := "aws".toList
  feature := "Widget Compression".toList
  date := "2024-01-10".toList
  status := "Not Supported".toList
  version := "--".toList
  lag := 30

/-- A fresh record with the same identity key as `oldRec` but now
supported. -/
def newRec : OutRecord where
  cloud := "aws".toList
  feature := "Widget Compression".toList
  date := "2024-01-10".toList
  status := "Supported".toList
  version := "v1.3".toList
  lag := 51

/-- A record with an unrelated identity key. -/
def otherRec : OutRecord where
  cloud := "gcp".toList
  feature := "Thing".toList
  date := "2023-05-01".toList
  status := "Not Supported".toList
  version := "--".toList
  lag := 2

/-! Helper lemmas. -/

theorem sortByDate_sorted (l : List Release) :
    List.Sorted (fun a b : Release => a.date ≤ b.date) (sortByDate l) := by
  haveI : IsTotal Release (fun a b => a.date ≤ b.date) :=
    ⟨fun a b => le_total a.date b.date⟩
  haveI : IsTrans Release (fun a b => a.date ≤ b.date) :=
    ⟨fun _ _ _ => le_trans⟩
  exact List.sorted_insertionSort _ l

theorem sortByDate_perm (l : List Release) : (sortByDate l).Perm l :=
  List.perm_insertionSort _ l

theorem find?_first {α : Type} {p : α → Bool} (l1 : List α) (r : α) (l2 : List α)
    (h1 : ∀ x ∈ l1, p x = false) (hr : p r = true) :
    List.find? p (l1 ++ r :: l2) = some r := by
  rw [List.find?_append]
  have hn : List.find? p l1 = none :=
    List.find?_eq_none.mpr (by intro x hx; simp [h1 x hx])
  simp [hn, List.find?_cons, hr]

theorem acceptsRelease_eq_scoreQ (tokens : Finset Str) (st rg : Str) (r : Release) :
    acceptsRelease tokens st rg r =
      decide (thresholdQ (decide (rg <:+: r.body)) (decide (st <:+: r.body)) ≤
        tokenScoreQ tokens r.body) := by
  unfold acceptsRelease tokenScoreQ thresholdQ
  by_cases h0 : tokens.card = 0
  · have he : tokens = ∅ := Finset.card_eq_zero.mp h0
    subst he
    simp only [h0, if_pos rfl, if_pos]
    symm
    rw [decide_eq_false_iff_not]
    split_ifs <;> norm_num
  · have hne : ¬ tokens = ∅ := by
      intro h; exact h0 (by simp [h])
    have hn : (0:ℚ) < tokens.card := by
      exact_mod_cast Nat.pos_of_ne_zero h0
    simp only [if_neg h0, if_neg hne]
    set hits := (tokens.filter (fun t => t <:+: r.body)).card with hh
    have k5 : decide ((1:ℚ)/5 ≤ (hits:ℚ)/(tokens.card:ℚ)) =
        decide (tokens.card ≤ 5 * hits) := by
      rw [decide_eq_decide, div_le_div_iff₀ (by norm_num) hn, one_mul,
        show ((5:ℚ)) = ((5:ℕ):ℚ) from by norm_num, ← Nat.cast_mul, Nat.cast_le]
      constructor <;> intro h <;> omega
    have k4 : decide ((1:ℚ)/4 ≤ (hits:ℚ)/(tokens.card:ℚ)) =
        decide (tokens.card ≤ 4 * hits) := by
      rw [decide_eq_decide, div_le_div_iff₀ (by norm_num) hn, one_mul,
        show ((4:ℚ)) = ((4:ℕ):ℚ) from by norm_num, ← Nat.cast_mul, Nat.cast_le]
      constructor <;> intro h <;> omega
    have k310 : decide ((3:ℚ)/10 ≤ (hits:ℚ)/(tokens.card:ℚ)) =
        decide (3 * tokens.card ≤ 10 * hits) := by
      rw [decide_eq_decide, div_le_div_iff₀ (by norm_num) hn,
        show ((3:ℚ)) = ((3:ℕ):ℚ) from by norm_num,
        show ((10:ℚ)) = ((10:ℕ):ℚ) from by norm_num,
        ← Nat.cast_mul, ← Nat.cast_mul, Nat.cast_le]
      constructor <;> intro h <;> omega
    by_cases hrm : rg <:+: r.body
    · simp only [hrm, decide_true_eq_true, if_true]
      exact k5.symm
    · simp only [hrm, decide_false_eq_false, if_false, Bool.false_eq_true]
      by_cases hsm : st <:+: r.body
      · simp only [hsm, decide_true_eq_true, if_true]
        exact k4.symm
      · simp only [hsm, decide_false_eq_false, if_false, Bool.false_eq_true]
        exact k310.symm

theorem thresholdQ_ite (P Q : Prop) [Decidable P] [Decidable Q] :
    thresholdQ (decide P) (decide Q) =
      if P then (1:ℚ)/5 else if Q then (1:ℚ)/4 else (3:ℚ)/10 := by
  unfold thresholdQ
  by_cases hp : P <;> by_cases hq : Q <;> simp [hp, hq]

theorem tokensFold_eq (stop : List Str) : ∀ (ws : List Str) (s : Finset Str),
    ws.foldl (fun s t =>
        if t ∈ stop then s
        else if endsWithS t then insert t.dropLast (insert t s) else insert t s) s
      = s ∪ (((ws.filter (fun t => t ∉ stop)).toFinset) ∪
          (((ws.filter (fun t => t ∉ stop)).toFinset.filter
              (fun t => endsWithS t = true)).image List.dropLast)) := by
  intro ws
  induction ws with
  | nil => intro s; simp
  | cons t ws ih =>
    intro s
    rw [List.foldl_cons, ih]
    by_cases hst : t ∈ stop
    · have hd : (decide (t ∉ stop)) = false := by simp [hst]
      rw [if_pos hst, List.filter_cons, hd]
      simp only [Bool.false_eq_true, if_false]
    · have hd : (decide (t ∉ stop)) = true := by simp [hst]
      rw [if_neg hst, List.filter_cons, hd, if_pos rfl]
      by_cases hes : endsWithS t = true
      · rw [if_pos hes]
        ext x
        simp only [Finset.mem_union, Finset.mem_insert, Finset.mem_image,
          Finset.mem_filter, List.toFinset_cons, List.mem_toFinset]
        constructor
        · rintro (⟨h1 | h1⟩ | h2 | ⟨y, ⟨hy1, hy2⟩, hy3⟩)
          · right; right; exact ⟨t, ⟨Or.inl rfl, hes⟩, h1.symm⟩
          · tauto
          · tauto
          · right; right; exact ⟨y, ⟨Or.inr hy1, hy2⟩, hy3⟩
        · rintro (h | h | ⟨y, ⟨hy1 | hy1, hy2⟩, hy3⟩)
          · tauto
          · tauto
          · subst hy1; left; left; exact hy3.symm
          · right; right; exact ⟨y, ⟨hy1, hy2⟩, hy3⟩
      · rw [if_neg hes]
        ext x
        simp only [Finset.mem_union, Finset.mem_insert, Finset.mem_image,
          Finset.mem_filter, List.toFinset_cons, List.mem_toFinset]
        constructor
        · rintro (h1 | h2 | ⟨y, ⟨hy1, hy2⟩, hy3⟩)
          · tauto
          · tauto
          · right; right; exact ⟨y, ⟨Or.inr hy1, hy2⟩, hy3⟩
        · rintro (h | h | ⟨y, ⟨hy1 | hy1, hy2⟩, hy3⟩)
          · tauto
          · tauto
          · subst hy1; exact absurd hy2 hes
          · right; right; exact ⟨y, ⟨hy1, hy2⟩, hy3⟩



/-- C9: date normalization is total and never raises. -/
theorem make_aware_total_utc :
    (∀ now : Int, make_aware now none = .aware now)
    ∧ (∀ now t : Int, make_aware now (some (.naive t)) = .aware t)
    ∧ (∀ now t : Int, make_aware now (some (.aware t)) = .aware t)
    ∧ (∀ now : Int, parseEntryDate now none = .aware now)
    ∧ (∀ (now : Int) (cloud service feature link : Str) (date : Option PyDateTime),
        (FeatureRecordPy.init now cloud service feature date link).ga_date.isAware = true) := by
  refine ⟨fun _ => rfl, fun _ _ => rfl, fun _ _ => rfl, fun _ => rfl, ?_⟩
  intro now c s ft l d
  cases d with
  | none => rfl
  | some dt => cases dt <;> rfl

/-- C2: an entry published strictly before GA is never selected. -/
theorem no_pre_ga_release_selected (cfg : CloudConfig) (f : FeatureRecordPy)
    (releases : List Release) (r : Release)
    (h : matchedRelease cfg f (sortByDate releases) = some r) :
    f.ga_date.instant ≤ r.date ∧ r ∈ releases := by
  unfold matchedRelease at h
  have hmem := List.mem_of_find?_eq_some h
  unfold eligibleReleases at hmem
  rw [List.mem_filter] at hmem
  refine ⟨by simpa using hmem.2, (sortByDate_perm releases).mem_iff.mp hmem.1⟩

theorem no_pre_ga_release_selected_witness :
    wFeature.ga_date.instant ≤ relHit.date ∧ relHit ∈ [relHit, relMiss, relEarly] :=
  no_pre_ga_release_selected awsConfig wFeature [relHit, relMiss, relEarly] relHit (by decide)

/-- C3 counterexample: with a future GA instant and no accepted candidate
the written lag is negative. -/
theorem lag_negative_when_ga_in_future :
    (process_features 0 awsConfig [futureFeature] [relBlank]).map
        FeatureRecordPy.lag_days = [-1]
    ∧ ((-1 : Int) < 0) := by decide

/-- C3 amended. -/
theorem lag_nonneg_amended :
    (∀ (now : Int) (cfg : CloudConfig) (f : FeatureRecordPy) (sorted : List Release)
        (r : Release), matchedRelease cfg f sorted = some r →
        0 ≤ (reconcileOne now cfg f sorted).lag_days)
    ∧ (∀ (now : Int) (cfg : CloudConfig) (features : List FeatureRecordPy)
        (rels : List Release),
        (∀ f ∈ features, 0 ≤ f.lag_days) →
        (∀ f ∈ features, f.ga_date.instant ≤ now) →
        ∀ g ∈ process_features now cfg features rels, 0 ≤ g.lag_days) := by
  constructor
  · intro now cfg f sorted r h
    unfold reconcileOne
    rw [h]
    simp only
    split_ifs with hl
    · exact hl
    · exact le_refl 0
  · intro now cfg features rels h1 h2 g hg
    unfold process_features at hg
    split_ifs at hg with hrels
    · exact h1 g hg
    · simp only [List.mem_map] at hg
      obtain ⟨f, hf, rfl⟩ := hg
      unfold reconcileOne
      cases hm : matchedRelease cfg f (sortByDate rels) with
      | some r =>
        simp only
        split_ifs with hl
        · exact hl
        · exact le_refl 0
      | none =>
        simp only
        exact Int.fdiv_nonneg (by have := h2 f hf; omega) (by norm_num)

theorem lag_nonneg_amended_witness :
    0 ≤ (reconcileOne 0 awsConfig wFeature (sortByDate [relHit])).lag_days
    ∧ 0 ≤ (reconcileOne 864000 awsConfig wFeature (sortByDate [relBlank])).lag_days := by
  constructor
  · exact lag_nonneg_amended.1 0 awsConfig wFeature (sortByDate [relHit]) relHit (by decide)
  · exact lag_nonneg_amended.2 864000 awsConfig [wFeature] [relBlank]
      (by decide) (by decide)
      (reconcileOne 864000 awsConfig wFeature (sortByDate [relBlank])) (by decide)



/-- C4 counterexample: with an empty candidate set the code returns lag 0,
not the days since GA. -/
theorem empty_releases_lag_zero :
    (process_features 864000 awsConfig [wFeature] []).map FeatureRecordPy.lag_days = [0]
    ∧ tdDays (864000 - wFeature.ga_date.instant) = 10
    ∧ ((0 : Int) ≠ 10) := by decide

/-- C4 amended. -/
theorem not_supported_outcome_amended :
    (∀ (now : Int) (cfg : CloudConfig) (f : FeatureRecordPy) (rels : List Release),
        rels ≠ [] →
        f.tf_version = "--".toList →
        matchedRelease cfg f (sortByDate rels) = none →
        ∀ g ∈ process_features now cfg [f] rels,
          g.tf_status = "Not Supported".toList
          ∧ g.tf_version = "--".toList
          ∧ g.lag_days = tdDays (now - f.ga_date.instant))
    ∧ (∀ (now : Int) (cfg : CloudConfig) (features : List FeatureRecordPy),
        process_features now cfg features [] = features) := by
  constructor
  · intro now cfg f rels hrels hv hm g hg
    unfold process_features at hg
    rw [if_neg hrels] at hg
    simp only [List.mem_map, List.mem_singleton] at hg
    obtain ⟨f', hf', rfl⟩ := hg
    subst hf'
    unfold reconcileOne
    rw [hm]
    exact ⟨rfl, hv, rfl⟩
  · intro now cfg features
    unfold process_features
    rw [if_pos rfl]

theorem not_supported_outcome_amended_witness :
    ((reconcileOne 864000 awsConfig wFeature (sortByDate [relBlank])).tf_status =
        "Not Supported".toList
      ∧ (reconcileOne 864000 awsConfig wFeature (sortByDate [relBlank])).tf_version =
        "--".toList
      ∧ (reconcileOne 864000 awsConfig wFeature (sortByDate [relBlank])).lag_days =
        tdDays (864000 - wFeature.ga_date.instant))
    ∧ process_features 5 awsConfig [stopOnlyFeature] [] = [stopOnlyFeature] := by
  constructor
  · exact not_supported_outcome_amended.1 864000 awsConfig wFeature [relBlank]
      (by decide) (by decide) (by decide)
      (reconcileOne 864000 awsConfig wFeature (sortByDate [relBlank])) (by decide)
  · exact not_supported_outcome_amended.2 5 awsConfig [stopOnlyFeature]

/-- C5: empty token set means score 0 everywhere and no acceptance. -/
theorem empty_tokens_never_accepts (cfg : CloudConfig) (f : FeatureRecordPy)
    (htok : announceTokens cfg f = ∅) :
    (∀ body : Str, tokenScoreQ (announceTokens cfg f) body = 0)
    ∧ (∀ rm sm : Bool, (1:ℚ)/5 ≤ thresholdQ rm sm)
    ∧ (∀ r : Release,
        acceptsRelease (announceTokens cfg f) (serviceToken f) (resourceGuess cfg f) r = false)
    ∧ (∀ sorted : List Release, matchedRelease cfg f sorted = none)
    ∧ (∀ (now : Int) (sorted : List Release),
        (reconcileOne now cfg f sorted).tf_status = "Not Supported".toList
        ∧ (reconcileOne now cfg f sorted).tf_version = f.tf_version) := by
  have hacc : ∀ r : Release,
      acceptsRelease (announceTokens cfg f) (serviceToken f) (resourceGuess cfg f) r = false := by
    intro r
    unfold acceptsRelease
    rw [htok]
    simp
  have hmat : ∀ sorted : List Release, matchedRelease cfg f sorted = none := by
    intro sorted
    unfold matchedRelease
    rw [List.find?_eq_none]
    intro x _
    simp [hacc x]
  refine ⟨?_, ?_, hacc, hmat, ?_⟩
  · intro body
    unfold tokenScoreQ
    rw [htok]
    simp
  · intro rm sm
    unfold thresholdQ
    split_ifs <;> norm_num
  · intro now sorted
    unfold reconcileOne
    rw [hmat sorted]
    exact ⟨rfl, rfl⟩

theorem empty_tokens_never_accepts_witness :
    matchedRelease awsConfig stopOnlyFeature (sortByDate [relHit, relMiss]) = none
    ∧ (reconcileOne 7 awsConfig stopOnlyFeature [relHit]).tf_status =
        "Not Supported".toList := by
  have h := empty_tokens_never_accepts awsConfig stopOnlyFeature (by decide)
  exact ⟨h.2.2.2.1 (sortByDate [relHit, relMiss]), (h.2.2.2.2 7 [relHit]).1⟩

/-- C8 counterexample: a title with an underscore. -/
theorem tokens_differ_from_alnum_split :
    tokensOf [] "a_b".toList ≠ specTokenSet [] "a_b".toList := by decide

/-- C8 amended. -/
theorem tokensOf_eq_tokenSetSpec (stop : List Str) (title : Str) :
    tokensOf stop title = tokenSetSpec stop title := by
  unfold tokensOf tokenSetSpec
  rw [tokensFold_eq]
  simp



/-- C10: plural stripping of a lone "s" adds the empty token. -/
theorem empty_token_from_plural_s (stop : List Str) (title : Str)
    (hs : "s".toList ∈ wordsOf (lowerStr title)) (hstop : "s".toList ∉ stop) :
    ([] : Str) ∈ tokensOf stop title
    ∧ (∀ body : Str, ([] : Str) ∈ (tokensOf stop title).filter (fun t => t <:+: body))
    ∧ (∀ body : Str,
        (1:ℚ) / ((tokensOf stop title).card : ℚ) ≤ tokenScoreQ (tokensOf stop title) body) := by
  have hmem : ([] : Str) ∈ tokensOf stop title := by
    rw [tokensOf_eq_tokenSetSpec]
    unfold tokenSetSpec
    simp only [Finset.mem_union, Finset.mem_image, Finset.mem_filter,
      List.mem_toFinset, List.mem_filter]
    right
    refine ⟨"s".toList, ⟨⟨hs, by simpa⟩, by decide⟩, by decide⟩
  have hfil : ∀ body : Str, ([] : Str) ∈ (tokensOf stop title).filter (fun t => t <:+: body) := by
    intro body
    rw [Finset.mem_filter]
    exact ⟨hmem, List.nil_infix⟩
  refine ⟨hmem, hfil, ?_⟩
  intro body
  unfold tokenScoreQ
  have hne : ¬ tokensOf stop title = ∅ := by
    intro h; rw [h] at hmem; simp at hmem
  rw [if_neg hne]
  have hhit : 0 < ((tokensOf stop title).filter (fun t => t <:+: body)).card :=
    Finset.card_pos.mpr ⟨[], hfil body⟩
  have h1 : (1:ℚ) ≤ ((tokensOf stop title).filter (fun t => t <:+: body)).card := by
    exact_mod_cast hhit
  have hcard : (0:ℚ) < ((tokensOf stop title).card : ℚ) := by
    exact_mod_cast Finset.card_pos.mpr ⟨[], hmem⟩
  gcongr

theorem empty_token_from_plural_s_witness :
    ([] : Str) ∈ tokensOf [] "s widget".toList
    ∧ (1:ℚ) / ((tokensOf [] "s widget".toList).card : ℚ) ≤
        tokenScoreQ (tokensOf [] "s widget".toList) "anything".toList := by
  have h := empty_token_from_plural_s [] "s widget".toList (by decide) (by decide)
  exact ⟨h.1, h.2.2 "anything".toList⟩

/-- C1. -/
theorem reconcile_first_eligible_match (now : Int) (cfg : CloudConfig)
    (f : FeatureRecordPy) (releases : List Release) :
    List.Sorted (fun a b : Release => a.date ≤ b.date)
      (eligibleReleases f (sortByDate releases))
    ∧ (∀ r ∈ eligibleReleases f (sortByDate releases), f.ga_date.instant ≤ r.date)
    ∧ (∀ r : Release,
        acceptsRelease (announceTokens cfg f) (serviceToken f) (resourceGuess cfg f) r
            = true ↔
          (if resourceGuess cfg f <:+: r.body then (1:ℚ)/5
           else if serviceToken f <:+: r.body then (1:ℚ)/4 else (3:ℚ)/10) ≤
            tokenScoreQ (announceTokens cfg f) r.body)
    ∧ (∀ (l1 l2 : List Release) (r : Release),
        eligibleReleases f (sortByDate releases) = l1 ++ r :: l2 →
        (∀ x ∈ l1,
          acceptsRelease (announceTokens cfg f) (serviceToken f) (resourceGuess cfg f) x
            = false) →
        acceptsRelease (announceTokens cfg f) (serviceToken f) (resourceGuess cfg f) r
            = true →
        matchedRelease cfg f (sortByDate releases) = some r
        ∧ (reconcileOne now cfg f (sortByDate releases)).tf_status = "Supported".toList
        ∧ (reconcileOne now cfg f (sortByDate releases)).tf_version = r.version) := by
  refine ⟨?_, ?_, ?_, ?_⟩
  · unfold eligibleReleases
    exact List.Pairwise.filter _ (sortByDate_sorted releases)
  · intro r hr
    unfold eligibleReleases at hr
    rw [List.mem_filter] at hr
    simpa using hr.2
  · intro r
    rw [acceptsRelease_eq_scoreQ, decide_eq_true_eq, thresholdQ_ite]
  · intro l1 l2 r heq hall hr
    have hm : matchedRelease cfg f (sortByDate releases) = some r := by
      unfold matchedRelease
      rw [heq]
      exact find?_first l1 r l2 hall hr
    refine ⟨hm, ?_, ?_⟩ <;> (unfold reconcileOne; rw [hm])

theorem reconcile_first_eligible_match_witness :
    matchedRelease awsConfig wFeature (sortByDate [relHit, relMiss, relEarly]) = some relHit
    ∧ (reconcileOne 0 awsConfig wFeature
        (sortByDate [relHit, relMiss, relEarly])).tf_status = "Supported".toList
    ∧ (reconcileOne 0 awsConfig wFeature
        (sortByDate [relHit, relMiss, relEarly])).tf_version = relHit.version :=
  (reconcile_first_eligible_match 0 awsConfig wFeature [relHit, relMiss, relEarly]).2.2.2
    [relMiss] [] relHit (by decide) (by decide) (by decide)

end Tracker

namespace Tracker

theorem strLe_total : ∀ a b : Str, strLe a b = true ∨ strLe b a = true
  | [], _ => Or.inl rfl
  | _ :: _, [] => Or.inr rfl
  | a :: as, b :: bs => by
    unfold strLe
    rcases lt_trichotomy a b with h | h | h
    · left; rw [if_pos h]
    · subst h
      simp only [lt_self_iff_false, if_false]
      exact strLe_total as bs
    · right; rw [if_pos h]

theorem strLe_trans : ∀ a b c : Str, strLe a b = true → strLe b c = true →
    strLe a c = true
  | [], _, _, _, _ => rfl
  | a :: as, [], c, hab, _ => by simp [strLe] at hab
  | a :: as, b :: bs, [], _, hbc => by simp [strLe] at hbc
  | a :: as, b :: bs, c :: cs, hab, hbc => by
    unfold strLe at hab hbc ⊢
    rcases lt_trichotomy a b with h1 | h1 | h1
    · rcases lt_trichotomy b c with h2 | h2 | h2
      · rw [if_pos (lt_trans h1 h2)]
      · subst h2; rw [if_pos h1]
      · rw [if_pos h2, if_neg (lt_asymm h2)] at hbc
        simp at hbc
    · subst h1
      rcases lt_trichotomy a c with h2 | h2 | h2
      · rw [if_pos h2]
      · subst h2
        simp only [lt_self_iff_false, if_false] at hab hbc ⊢
        exact strLe_trans as bs cs hab hbc
      · rw [if_pos h2, if_neg (lt_asymm h2)] at hbc
        simp at hbc
    · rw [if_pos h1, if_neg (lt_asymm h1)] at hab
      simp at hab

end Tracker

namespace Tracker

/-- Well-formedness of the association list: every entry is stored under
its record's key. -/
def mapWF (d : List (Str × OutRecord)) : Prop := ∀ p ∈ d, p.1 = recordKey p.2

theorem mapLookup_upsert (d : List (Str × OutRecord)) (kv : Str × OutRecord) (k : Str) :
    mapLookup (upsert d kv) k = if kv.1 = k then some kv.2 else mapLookup d k := by
  induction d with
  | nil =>
    unfold upsert mapLookup
    by_cases h : kv.1 = k <;> simp [h, mapLookup]
  | cons p rest ih =>
    unfold upsert
    by_cases hp : p.1 = kv.1
    · rw [if_pos hp]
      unfold mapLookup
      by_cases h : kv.1 = k
      · rw [if_pos h, if_pos h]
      · rw [if_neg h, if_neg h, if_neg (hp ▸ h)]
    · rw [if_neg hp]
      unfold mapLookup
      by_cases h : p.1 = k
      · rw [if_pos h, if_neg (fun hk => hp (h.trans hk.symm) : ¬ kv.1 = k), if_pos h]
      · rw [if_neg h, ih, if_neg h]

end Tracker

namespace Tracker

theorem keys_upsert (d : List (Str × OutRecord)) (kv : Str × OutRecord) :
    (upsert d kv).map Prod.fst =
      if kv.1 ∈ d.map Prod.fst then d.map Prod.fst else d.map Prod.fst ++ [kv.1] := by
  induction d with
  | nil =>
    rw [if_neg (by simp : ¬ kv.1 ∈ (([] : List (Str × OutRecord)).map Prod.fst))]
    rfl
  | cons p rest ih =>
    unfold upsert
    by_cases hp : p.1 = kv.1
    · rw [if_pos hp,
        if_pos (by rw [List.map_cons, ← hp]; exact List.mem_cons_self _ _)]
      rw [List.map_cons, List.map_cons, hp]
    · rw [if_neg hp]
      have hne : ¬ kv.1 = p.1 := fun h => hp h.symm
      by_cases hm : kv.1 ∈ rest.map Prod.fst
      · rw [if_pos (by simp [hm])]
        simp only [List.map_cons]
        rw [ih, if_pos hm]
      · rw [if_neg (by simp [hne, hm])]
        simp only [List.map_cons, List.cons_append]
        rw [ih, if_neg hm]

theorem keys_nodup_upsert (d : List (Str × OutRecord)) (kv : Str × OutRecord)
    (h : (d.map Prod.fst).Nodup) : ((upsert d kv).map Prod.fst).Nodup := by
  rw [keys_upsert]
  by_cases hm : kv.1 ∈ d.map Prod.fst
  · rw [if_pos hm]; exact h
  · rw [if_neg hm]
    simp [List.nodup_append, h, hm]

theorem mapWF_upsert (d : List (Str × OutRecord)) (r : OutRecord)
    (h : mapWF d) : mapWF (upsert d (recordKey r, r)) := by
  induction d with
  | nil =>
    intro p hp
    simp only [upsert, List.mem_singleton] at hp
    subst hp; rfl
  | cons q rest ih =>
    have hq : q.1 = recordKey q.2 := h q (List.mem_cons_self _ _)
    have hrest : mapWF rest := fun p hp => h p (List.mem_cons_of_mem _ hp)
    intro p hp
    unfold upsert at hp
    by_cases hk : q.1 = recordKey r
    · rw [if_pos hk] at hp
      rcases List.mem_cons.mp hp with h1 | h1
      · subst h1; rfl
      · exact hrest p h1
    · rw [if_neg hk] at hp
      rcases List.mem_cons.mp hp with h1 | h1
      · subst h1; exact hq
      · exact ih hrest p h1

theorem mapLookup_foldl (l : List OutRecord) : ∀ (d : List (Str × OutRecord)) (k : Str),
    mapLookup (l.foldl (fun d r => upsert d (recordKey r, r)) d) k =
      match lastWith l k with
      | some m => some m
      | none => mapLookup d k := by
  induction l with
  | nil => intro d k; simp [lastWith]
  | cons r l ih =>
    intro d k
    rw [List.foldl_cons, ih]
    cases h : lastWith l k with
    | some m =>
      have h2 : lastWith (r :: l) k = some m := by
        unfold lastWith; rw [h]
      rw [h2]
    | none =>
      have h2 : lastWith (r :: l) k =
          if recordKey r = k then some r else none := by
        unfold lastWith; rw [h]
      rw [h2, mapLookup_upsert]
      by_cases hk : recordKey r = k <;> simp [hk]

theorem buildMap_wf (l : List OutRecord) :
    mapWF (buildMap l) ∧ ((buildMap l).map Prod.fst).Nodup := by
  unfold buildMap
  suffices h : ∀ d, mapWF d → (d.map Prod.fst).Nodup →
      mapWF (l.foldl (fun d r => upsert d (recordKey r, r)) d) ∧
      ((l.foldl (fun d r => upsert d (recordKey r, r)) d).map Prod.fst).Nodup by
    exact h [] (by intro p hp; simp at hp) (by simp)
  induction l with
  | nil => intro d h1 h2; exact ⟨h1, h2⟩
  | cons r l ih =>
    intro d h1 h2
    rw [List.foldl_cons]
    exact ih _ (mapWF_upsert d r h1) (keys_nodup_upsert d _ h2)

theorem mapLookup_buildMap (l : List OutRecord) (k : Str) :
    mapLookup (buildMap l) k = lastWith l k := by
  unfold buildMap
  rw [mapLookup_foldl]
  cases h : lastWith l k <;> simp [mapLookup]

theorem mem_values_iff (d : List (Str × OutRecord)) (hwf : mapWF d)
    (hnd : (d.map Prod.fst).Nodup) (r : OutRecord) :
    r ∈ d.map Prod.snd ↔ mapLookup d (recordKey r) = some r := by
  induction d with
  | nil => simp [mapLookup]
  | cons p rest ih =>
    have hp : p.1 = recordKey p.2 := hwf p (List.mem_cons_self _ _)
    have hwf2 : mapWF rest := fun q hq => hwf q (List.mem_cons_of_mem _ hq)
    have hnd2 : (rest.map Prod.fst).Nodup := by
      rw [List.map_cons, List.nodup_cons] at hnd; exact hnd.2
    have hni : p.1 ∉ rest.map Prod.fst := by
      rw [List.map_cons, List.nodup_cons] at hnd; exact hnd.1
    simp only [List.map_cons]
    unfold mapLookup
    constructor
    · intro hr
      rcases List.mem_cons.mp hr with h1 | h1
      · subst h1
        rw [if_pos hp]
      · have hkey : recordKey r ∈ rest.map Prod.fst := by
          rcases List.mem_map.mp h1 with ⟨q, hq, hq2⟩
          subst hq2
          rw [← hwf2 q hq]
          exact List.mem_map.mpr ⟨q, hq, rfl⟩
        rw [if_neg (fun hcontra => hni (by rw [hcontra]; exact hkey))]
        exact (ih hwf2 hnd2).mp h1
    · intro hr
      by_cases hk : p.1 = recordKey r
      · rw [if_pos hk] at hr
        have hpr : p.2 = r := Option.some_injective _ hr
        rw [← hpr]
        exact List.mem_cons_self _ _
      · rw [if_neg hk] at hr
        exact List.mem_cons_of_mem _ ((ih hwf2 hnd2).mpr hr)

theorem lastWith_append (a b : List OutRecord) (k : Str) :
    lastWith (a ++ b) k =
      match lastWith b k with
      | some m => some m
      | none => lastWith a k := by
  induction a with
  | nil => cases h : lastWith b k <;> simp [lastWith, h]
  | cons r a ih =>
    rw [List.cons_append]
    cases h : lastWith b k with
    | some m =>
      have h2 : lastWith (a ++ b) k = some m := by rw [ih, h]
      unfold lastWith
      rw [h2]
    | none =>
      have h2 : lastWith (a ++ b) k = lastWith a k := by rw [ih, h]
      unfold lastWith
      rw [h2]

theorem lastWith_mem (l : List OutRecord) (k : Str) (r : OutRecord)
    (h : lastWith l k = some r) : r ∈ l ∧ recordKey r = k := by
  induction l with
  | nil => simp [lastWith] at h
  | cons x l ih =>
    unfold lastWith at h
    cases hl : lastWith l k with
    | some m =>
      rw [hl] at h
      obtain rfl : m = r := by simpa using h
      obtain ⟨h1, h2⟩ := ih hl
      exact ⟨List.mem_cons_of_mem _ h1, h2⟩
    | none =>
      rw [hl] at h
      simp only at h
      by_cases hk : recordKey x = k
      · rw [if_pos hk] at h
        obtain rfl : x = r := by simpa using h
        exact ⟨List.mem_cons_self _ _, hk⟩
      · rw [if_neg hk] at h
        simp at h

theorem lastWith_isSome_of_mem (l : List OutRecord) (r : OutRecord) (h : r ∈ l) :
    ∃ m, lastWith l (recordKey r) = some m ∧ m ∈ l ∧ recordKey m = recordKey r := by
  have hsome : lastWith l (recordKey r) ≠ none := by
    induction l with
    | nil => simp at h
    | cons x l ih =>
      unfold lastWith
      cases hl : lastWith l (recordKey r) with
      | some m => simp
      | none =>
        simp only
        rcases List.mem_cons.mp h with h1 | h1
        · subst h1; rw [if_pos rfl]; simp
        · exact absurd hl (ih h1)
  cases hl : lastWith l (recordKey r) with
  | none => exact absurd hl hsome
  | some m =>
    obtain ⟨h1, h2⟩ := lastWith_mem l (recordKey r) m hl
    exact ⟨m, rfl, h1, h2⟩

end Tracker

namespace Tracker

theorem values_keys_eq (d : List (Str × OutRecord)) (hwf : mapWF d) :
    (d.map Prod.snd).map recordKey = d.map Prod.fst := by
  induction d with
  | nil => rfl
  | cons p rest ih =>
    have hp := hwf p (List.mem_cons_self _ _)
    simp only [List.map_cons]
    rw [← hp, ih (fun q hq => hwf q (List.mem_cons_of_mem _ hq))]

theorem mem_mergeRecords (existing new : List OutRecord) (r : OutRecord) :
    r ∈ mergeRecords existing new ↔
      lastWith (existing ++ new) (recordKey r) = some r := by
  unfold mergeRecords
  rw [(List.perm_insertionSort _ _).mem_iff]
  rw [mem_values_iff _ (buildMap_wf _).1 (buildMap_wf _).2 r]
  rw [mapLookup_buildMap]

theorem mergeRecords_sorted (existing new : List OutRecord) :
    List.Sorted (fun a b : OutRecord => strLe b.date a.date = true)
      (mergeRecords existing new) := by
  haveI : IsTotal OutRecord (fun a b => strLe b.date a.date = true) :=
    ⟨fun a b => strLe_total b.date a.date⟩
  haveI : IsTrans OutRecord (fun a b => strLe b.date a.date = true) :=
    ⟨fun a b c hab hbc => strLe_trans c.date b.date a.date hbc hab⟩
  exact List.sorted_insertionSort _ _

theorem mergeRecords_keys_nodup (existing new : List OutRecord) :
    ((mergeRecords existing new).map recordKey).Nodup := by
  unfold mergeRecords
  have hperm :=
    (List.perm_insertionSort (fun a b : OutRecord => strLe b.date a.date = true)
      ((buildMap (existing ++ new)).map Prod.snd)).map recordKey
  refine List.Nodup.perm ?_ hperm.symm
  rw [values_keys_eq _ (buildMap_wf _).1]
  exact (buildMap_wf _).2

/-- C6. -/
theorem merge_new_wins_dedup_sorted (existing new : List OutRecord) :
    (∀ r : OutRecord, r ∈ mergeRecords existing new ↔
        lastWith (existing ++ new) (recordKey r) = some r)
    ∧ (∀ e n : OutRecord, e ∈ existing → n ∈ new → recordKey e = recordKey n →
        (∃ m ∈ new, recordKey m = recordKey n ∧ m ∈ mergeRecords existing new)
        ∧ (e ∉ new → e ∉ mergeRecords existing new))
    ∧ (∀ r ∈ existing ++ new,
        ∃ m ∈ mergeRecords existing new, recordKey m = recordKey r)
    ∧ ((mergeRecords existing new).map recordKey).Nodup
    ∧ List.Sorted (fun a b : OutRecord => strLe b.date a.date = true)
        (mergeRecords existing new) := by
  refine ⟨mem_mergeRecords existing new, ?_, ?_,
    mergeRecords_keys_nodup existing new, mergeRecords_sorted existing new⟩
  · intro e n he hn hk
    obtain ⟨m, hm, hmn, hmk⟩ := lastWith_isSome_of_mem new n hn
    have hlast : lastWith (existing ++ new) (recordKey n) = some m := by
      rw [lastWith_append, hm]
    constructor
    · refine ⟨m, hmn, hmk, ?_⟩
      rw [mem_mergeRecords, hmk]
      exact hlast
    · intro hen hmem
      rw [mem_mergeRecords, hk, hlast] at hmem
      exact hen (Option.some_injective _ hmem ▸ hmn)
  · intro r hr
    obtain ⟨m, hm, hmn, hmk⟩ := lastWith_isSome_of_mem _ r hr
    refine ⟨m, ?_, hmk⟩
    rw [mem_mergeRecords, hmk]
    exact hm

theorem merge_new_wins_dedup_sorted_witness :
    (∃ m ∈ [newRec], recordKey m = recordKey newRec
      ∧ m ∈ mergeRecords [oldRec, otherRec] [newRec])
    ∧ oldRec ∉ mergeRecords [oldRec, otherRec] [newRec] := by
  have h := (merge_new_wins_dedup_sorted [oldRec, otherRec] [newRec]).2.1 oldRec newRec
    (by decide) (by decide) (by decide)
  exact ⟨h.1, h.2 (by decide)⟩

/-- C7. -/
theorem merge_idempotent_and_rebuild (X new : List OutRecord) :
    (∀ r : OutRecord, r ∈ mergeRecords X X ↔ r ∈ mergeRecords [] X)
    ∧ (∀ r : OutRecord, r ∈ mergeRecords [] new ↔
        lastWith new (recordKey r) = some r)
    ∧ (∀ r ∈ mergeRecords [] new, r ∈ new)
    ∧ ((mergeRecords [] new).map recordKey).Nodup
    ∧ List.Sorted (fun a b : OutRecord => strLe b.date a.date = true)
        (mergeRecords [] new) := by
  have hmm : ∀ (l : List OutRecord) (r : OutRecord),
      r ∈ mergeRecords [] l ↔ lastWith l (recordKey r) = some r := by
    intro l r
    rw [mem_mergeRecords, List.nil_append]
  refine ⟨?_, hmm new, ?_, mergeRecords_keys_nodup [] new,
    mergeRecords_sorted [] new⟩
  · intro r
    rw [mem_mergeRecords, hmm X r, lastWith_append]
    cases h : lastWith X (recordKey r) <;> simp [h]
  · intro r hr
    rw [hmm new r] at hr
    exact (lastWith_mem _ _ _ hr).1

theorem merge_idempotent_and_rebuild_witness :
    (oldRec ∈ mergeRecords [oldRec, newRec] [oldRec, newRec] ↔
      oldRec ∈ mergeRecords [] [oldRec, newRec])
    ∧ (newRec ∈ mergeRecords [] [newRec] ↔
        lastWith [newRec] (recordKey newRec) = some newRec) :=
  ⟨(merge_idempotent_and_rebuild [oldRec, newRec] []).1 oldRec,
   (merge_idempotent_and_rebuild [] [newRec]).2.1 newRec⟩

end Tracker
